import Mathlib

/-!
Verification development for the VTT-to-SRT subtitle correction pipeline
(`process_vtt.py`, `process_vtt_ai.py`, `process_vtt_gemini_v2.py`,
`process_vtt_gemini_v3.py`, `split_vtt_to_batches.py`).

Texts are modelled as `List Char`.  Python string primitives (`str.strip`,
`str.replace`, `str.split`) are embedded as executable functions below;
recursions whose measure is not structural use an explicit fuel argument
that is always large enough (each step consumes at least one character),
so the fuelled functions compute exactly the Python behaviour.
-/

set_option maxHeartbeats 1000000

/-- Python whitespace (`str.isspace` / regex `\s`), restricted to the ASCII
whitespace characters, which are the only ones the pipeline's data contains. -/
def isPySpace (c : Char) : Bool :=
  c == ' ' || c == '\t' || c == '\n' || c == '\r' || c == '\x0b' || c == '\x0c'

/-- Python `str.strip()`: drop leading and trailing whitespace. -/
def pyStrip (s : List Char) : List Char :=
  ((s.dropWhile isPySpace).reverse.dropWhile isPySpace).reverse

/-- Python `str.split('\n')`. -/
def splitOnNL : List Char → List (List Char)
  | [] => [[]]
  | c :: rest =>
    if c == '\n' then [] :: splitOnNL rest
    else
      match splitOnNL rest with
      | [] => [[c]]
      | h :: t => (c :: h) :: t

/-- Fuelled Python `str.replace(old, new)`: leftmost, non-overlapping.
Each step consumes at least one character of `s`, so fuel `s.length`
suffices.  (Python's special treatment of an empty `old` is not needed:
every call site passes a non-empty literal, and for `old = []` this
function returns `s` unchanged.) -/
def pyReplaceFuel : Nat → List Char → List Char → List Char → List Char
  | 0, _, _, s => s
  | f + 1, old, new, s =>
    if !old.isEmpty && old.isPrefixOf s then
      new ++ pyReplaceFuel f old new (s.drop old.length)
    else
      match s with
      | [] => []
      | c :: rest => c :: pyReplaceFuel f old new rest

/-- Python `str.replace(old, new)`. -/
def pyReplace (old new s : List Char) : List Char :=
  pyReplaceFuel s.length old new s

/-- Python `int` on a non-empty string of ASCII digits. -/
def digitsToNat (ds : List Char) : Nat :=
  ds.foldl (fun n c => n * 10 + (c.toNat - 48)) 0

/-- A parsed caption segment: the dict
`{'index': i, 'start': s, 'end': e, 'text': t}` built by `read_vtt_file`.
The `end` key is spelt `stop` because `end` is reserved in Lean. -/
structure Segment where
  index : Nat
  start : List Char
  stop : List Char
  text : List Char
deriving DecidableEq, Repr

/-- The `{'index': i, 'text': t}` dicts handled by `parse_ai_response` and
by pass 2 of `process_entries`. -/
structure IEntry where
  index : Nat
  text : List Char
deriving DecidableEq, Repr

/-- A Python dict from segment index to text, in insertion order. -/
abbrev Dict := List (Nat × List Char)

/-- Python `k in d`. -/
def dictContains (d : Dict) (k : Nat) : Bool :=
  d.any (fun p => p.1 == k)

/-- Python `d.get(k)` / `d[k]` as an option. -/
def dictGet? (d : Dict) (k : Nat) : Option (List Char) :=
  (d.find? (fun p => p.1 == k)).map (fun p => p.2)

/-- Python `d[k] = v`: overwrite in place if the key exists, else append
(insertion order is preserved). -/
def dictInsert (d : Dict) (k : Nat) (v : List Char) : Dict :=
  if dictContains d k then d.map (fun p => if p.1 == k then (k, v) else p)
  else d ++ [(k, v)]

/-- Python `d.update(other)`: upsert the pairs of `other` in order. -/
def dictUpdate (d other : Dict) : Dict :=
  other.foldl (fun a p => dictInsert a p.1 p.2) d

/-- Replace every value of the dict (the `for idx in all_corrected:` loop). -/
def dictMapValues (f : List Char → List Char) (d : Dict) : Dict :=
  d.map (fun p => (p.1, f p.2))

/-- Insert into a key-sorted assoc list (helper for Python `sorted`). -/
def insertByKey (p : Nat × List Char) : Dict → Dict
  | [] => [p]
  | q :: rest => if p.1 ≤ q.1 then p :: q :: rest else q :: insertByKey p rest

/-- Python `sorted(d.items())` (keys are distinct, so sorting the pairs
lexicographically is sorting by key). -/
def sortByKey (d : Dict) : Dict :=
  d.foldr insertByKey []

/-!  The transcript parser `read_vtt_file`.

All five scripts share the regex

`(\d{2}:\d{2}:\d{2}\.\d{3})\s*-->\s*(\d{2}:\d{2}:\d{2}\.\d{3}).*?\n((?:.*(?:\n|$))+?)(?=\n\d{2}:\d{2}:\d{2}\.\d{3}|$)`

applied with `re.findall(..., re.MULTILINE)`.  The embedding below follows
the actual backtracking behaviour of Python's engine on this pattern:

* the lazy text group `((?:.*(?:\n|$))+?)` grows line by line, and after
  each full line (content plus `\n`) the engine first tries the
  lookahead `(?=\n\d{2}:...|$)`;
* under `re.MULTILINE` the `$` alternative of the lookahead matches at the
  end of the input or immediately before any `\n`, so the lookahead
  succeeds exactly when the *next* line is empty or the input is
  exhausted (the `\n\d{2}:...` alternative is subsumed by `$`);
* the in-iteration `$` alternative of `(?:\n|$)` is preferred only at the
  very end of the input when the final line has no trailing newline,
  because extending the group always eventually succeeds otherwise.
-/

/-- Match `\d{2}:\d{2}:\d{2}\.\d{3}` at the head of the input, returning the
twelve matched characters and the rest. -/
def matchTS : List Char → Option (List Char × List Char)
  | c1 :: c2 :: c3 :: c4 :: c5 :: c6 :: c7 :: c8 :: c9 :: c10 :: c11 :: c12 :: rest =>
    if c1.isDigit && c2.isDigit && c3 == ':' && c4.isDigit && c5.isDigit && c6 == ':' &&
        c7.isDigit && c8.isDigit && c9 == '.' && c10.isDigit && c11.isDigit && c12.isDigit then
      some ([c1, c2, c3, c4, c5, c6, c7, c8, c9, c10, c11, c12], rest)
    else none
  | _ => none

/-- The `.*?\n` after the second timestamp: skip to just past the first
newline; fail if there is none. -/
def dropToNL : List Char → Option (List Char)
  | [] => none
  | c :: rest => if c == '\n' then some rest else dropToNL rest

/-- The lazy text group plus lookahead, as analysed above: consume whole
lines until the next line is empty or the input ends; a final line without
a trailing newline is consumed via the `$` branch.  Returns the text group
and the remaining input at the (zero-width) lookahead position.  Fuel: each
recursive step consumes at least one character. -/
def takeTextFuel : Nat → List Char → (List Char × List Char)
  | 0, s => ([], s)
  | _ + 1, [] => ([], [])
  | f + 1, s =>
    let line := s.takeWhile (fun c => !(c == '\n'))
    match s.dropWhile (fun c => !(c == '\n')) with
    | [] => (line, [])
    | _ :: r =>
      match r with
      | [] => (line ++ ['\n'], [])
      | '\n' :: _ => (line ++ ['\n'], r)
      | _ =>
        let p := takeTextFuel f r
        (line ++ '\n' :: p.1, p.2)

/-- Try to match the whole cue pattern at the current position, returning
`((start, end, text), rest)` on success. -/
def tryMatch (s : List Char) : Option ((List Char × List Char × List Char) × List Char) :=
  match matchTS s with
  | none => none
  | some (ts1, r1) =>
    match r1.dropWhile isPySpace with
    | '-' :: '-' :: '>' :: r3 =>
      match matchTS (r3.dropWhile isPySpace) with
      | none => none
      | some (ts2, r5) =>
        match dropToNL r5 with
        | none => none
        | some r6 =>
          let p := takeTextFuel (r6.length + 1) r6
          some ((ts1, ts2, p.1), p.2)
    | _ => none

/-- `re.findall`: scan left to right; on a match, emit the groups and
continue from the match end; otherwise advance one character.  A successful
match always consumes at least one character, so fuel `length + 1`
suffices. -/
def vttFindallFuel : Nat → List Char → List (List Char × List Char × List Char)
  | 0, _ => []
  | _ + 1, [] => []
  | f + 1, c :: cs =>
    match tryMatch (c :: cs) with
    | some (m, rest) => m :: vttFindallFuel f rest
    | none => vttFindallFuel f cs

/-- All regex matches of the cue pattern in the input. -/
def vttFindall (content : List Char) : List (List Char × List Char × List Char) :=
  vttFindallFuel (content.length + 1) content

/-- The `for i, (start, end, text) in enumerate(matches, 1):` loop of
`read_vtt_file`: strip each text, keep only non-empty ones, and attach the
enumeration counter (which advances on every match, kept or dropped). -/
def vttEntriesGo : Nat → List (List Char × List Char × List Char) → List Segment
  | _, [] => []
  | i, (st, en, tx) :: rest =>
    let t := pyStrip tx
    if t = [] then vttEntriesGo (i + 1) rest
    else ⟨i, st, en, t⟩ :: vttEntriesGo (i + 1) rest

/-- `read_vtt_file`: parse the raw caption text into segments. -/
def read_vtt_file (content : List Char) : List Segment :=
  vttEntriesGo 1 (vttFindall content)

/-- `vtt_time_to_srt_time`: `vtt_time.replace('.', ',')`. -/
def vtt_time_to_srt_time (t : List Char) : List Char :=
  pyReplace ['.'] [','] t

/-!  `remove_speaker_name` (v3).

`re.sub(r'^[A-Za-z぀-ゟ゠-ヿ一-鿿]+(?:\s+[...])*:\s*', '', text)`.

The pattern is anchored at the start of the string (no `re.MULTILINE`), so
at most one leading occurrence is removed.  Name characters, whitespace and
`:` are pairwise disjoint character classes, so the greedy quantifiers
never need to backtrack: after the initial name run the engine repeatedly
consumes a maximal whitespace run followed by a maximal name run; the match
succeeds exactly when a `:` is reached at a run boundary, and the `\s*`
after the colon is consumed greedily.
-/

/-- One character of the speaker-name class
`[A-Za-z぀-ゟ゠-ヿ一-鿿]`. -/
def isNameChar (c : Char) : Bool :=
  ('A' ≤ c && c ≤ 'Z') || ('a' ≤ c && c ≤ 'z') ||
    (0x3040 ≤ c.toNat && c.toNat ≤ 0x309F) || (0x30A0 ≤ c.toNat && c.toNat ≤ 0x30FF) ||
    (0x4E00 ≤ c.toNat && c.toNat ≤ 0x9FFF)

/-- Scan loop for `remove_speaker_name`, positioned just after a name run:
on `:` the match succeeds and the text after the colon's trailing
whitespace is returned; otherwise another whitespace-plus-name group is
consumed, and if that is impossible the whole substitution is a no-op and
the original text `t` is returned.  Each recursive step consumes at least
two characters, so fuel `t.length + 1` suffices. -/
def speakerLoopFuel (t : List Char) : Nat → List Char → List Char
  | 0, _ => t
  | _ + 1, [] => t
  | f + 1, c :: r =>
    if c == ':' then r.dropWhile isPySpace
    else
      if (c :: r).takeWhile isPySpace = [] then t
      else
        let s2 := (c :: r).dropWhile isPySpace
        let run := s2.takeWhile isNameChar
        if run = [] then t
        else speakerLoopFuel t f (s2.drop run.length)

/-- `remove_speaker_name`: strip one leading `Name:` / `Name Name:` token
(with its trailing whitespace) from the start of the text, if present. -/
def remove_speaker_name (t : List Char) : List Char :=
  let run1 := t.takeWhile isNameChar
  if run1 = [] then t
  else speakerLoopFuel t (t.length + 1) (t.drop run1.length)

/-!  The response parser `parse_ai_response` (identical in v2 and v3). -/

/-- `re.match(r'^\[(\d+)\]\s*(.*)', line.strip())` plus
`text = match.group(2).strip()`: returns the parsed index and the stripped
remainder of the line when the line is a bracketed-index line. -/
def parseTaggedLine (line : List Char) : Option (Nat × List Char) :=
  match pyStrip line with
  | '[' :: rest =>
    let ds := rest.takeWhile Char.isDigit
    match rest.dropWhile Char.isDigit with
    | ']' :: r3 =>
      if ds = [] then none
      else some (digitsToNat ds, pyStrip (r3.dropWhile isPySpace))
    | _ => none
  | _ => none

/-- The line-scanning phase of `parse_ai_response`: split the stripped
response on newlines and collect `result[index] = text` for every matching
line with non-empty stripped text. -/
def extractResponse (response : List Char) : Dict :=
  (splitOnNL (pyStrip response)).foldl
    (fun acc line =>
      match parseTaggedLine line with
      | some (i, t) => if t = [] then acc else dictInsert acc i t
      | none => acc) []

/-- `original_dict = {entry['index']: entry['text'] for entry in original_entries}`. -/
def origDict (orig : List IEntry) : Dict :=
  orig.foldl (fun d e => dictInsert d e.index e.text) []

/-- `parse_ai_response(response_text, original_entries)`: the line scan
followed by the fallback loop that fills every batch index that the scan
did not produce with that entry's original text. -/
def parse_ai_response (response : List Char) (orig : List IEntry) : Dict :=
  orig.foldl
    (fun acc e =>
      if dictContains acc e.index then acc
      else dictInsert acc e.index ((dictGet? (origDict orig) e.index).getD []))
    (extractResponse response)

/-!  The correction pattern store and the rule-based correctors. -/

/-- The structure of `correction_patterns.json` as read by
`load_correction_patterns` (v3); `simple_patterns` is an insertion-ordered
dict of wrong-to-correct replacements. -/
structure Patterns where
  simple : List (List Char × List Char)
  fillerWords : List (List Char)
  dentalTerms : List (List Char)
deriving Repr

/-- The empty store returned when `correction_patterns.json` is missing. -/
def emptyPatterns : Patterns := ⟨[], [], []⟩

/-- `apply_simple_replacements(text, patterns)` (v3): iterated
`text.replace(wrong, correct)` over the store's `simple_patterns` in
declaration order. -/
def apply_simple_replacements (t : List Char) (pats : Patterns) : List Char :=
  pats.simple.foldl (fun s p => pyReplace p.1 p.2 s) t

/-- The hard-coded filler list of `correct_entry_text` (`process_vtt.py`),
in source order. -/
def fillerList : List (List Char) :=
  ["えー、", "えー", "あのー、", "あのー", "えっと、", "えっと", "その、", "まあ、", "まあ"].map
    String.toList

/-- The hard-coded substitution table of `correct_entry_text`
(`process_vtt.py`), in source order. -/
def replacePairs : List (List Char × List Char) :=
  [("なんすね", "なんですね"), ("なんすか", "なんですか"), ("っすね", "ですね"),
   ("っすよ", "ですよ"), ("っす", "です"), ("ほてつ", "補綴"), ("ホテツ", "補綴"),
   ("わいしょうし", "矮小歯"), ("けんじょうしつ", "舌側歯"), ("きょうごうめん", "咬合面"),
   ("こうくうがい", "口腔外")].map (fun p => (p.1.toList, p.2.toList))

/-- `correct_entry_text(text)` (`process_vtt.py`): delete each filler,
apply each substitution, then strip. -/
def correct_entry_text (t : List Char) : List Char :=
  pyStrip
    (replacePairs.foldl (fun s p => pyReplace p.1 p.2 s)
      (fillerList.foldl (fun s f => pyReplace f [] s) t))

/-!  The batch scheduler. -/

/-- Fuelled body of `split_into_batches` (`split_vtt_to_batches.py`):
`for i in range(0, len(entries), batch_size): batches.append(entries[i:i+batch_size])`.
Each step drops `k ≥ 1` elements, so fuel `l.length` suffices. -/
def splitBatchesFuel {α : Type} : Nat → List α → Nat → List (List α)
  | 0, _, _ => []
  | _ + 1, [], _ => []
  | f + 1, l, k => l.take k :: splitBatchesFuel f (l.drop k) k

/-- `split_into_batches(entries, batch_size)`. -/
def split_into_batches {α : Type} (l : List α) (k : Nat) : List (List α) :=
  splitBatchesFuel l.length l k

/-- `(total_entries + chunk_size - 1) // chunk_size` (v2/v3). -/
def v3TotalChunks (n k : Nat) : Nat := (n + k - 1) / k

/-- The chunk slice of `process_entries` (v2/v3):
`entries[(chunk_num-1)*chunk_size : min(chunk_num*chunk_size, len(entries))]`. -/
def sliceChunk {α : Type} (es : List α) (c k : Nat) : List α :=
  (es.drop ((c - 1) * k)).take (min (c * k) es.length - (c - 1) * k)

/-- The chunk sequence traversed by the v2/v3 pass loops. -/
def v3ChunkList {α : Type} (es : List α) (k : Nat) : List (List α) :=
  (List.range' 1 (v3TotalChunks es.length k)).map (fun c => sliceChunk es c k)

/-- The segment fields `parse_ai_response` and the prompts read:
`{'index': e['index'], 'text': e['text']}`. -/
def toIEntry (e : Segment) : IEntry := ⟨e.index, e.text⟩

/-- The per-chunk merge of pass 1 of `process_entries` (v3; v2's single
pass is identical): on a response, parse it against the chunk and
`all_corrected.update(...)`; on oracle failure, fall back to
`all_corrected[entry['index']] = entry['text']` for the chunk's entries. -/
def pass1ChunkMerge (acc : Dict) (chunk : List Segment) (resp : Option (List Char)) : Dict :=
  match resp with
  | some t => dictUpdate acc (parse_ai_response t (chunk.map toIEntry))
  | none => chunk.foldl (fun a e => dictInsert a e.index e.text) acc

/-- Pass 1 of `process_entries`: fold the chunk merge over chunk numbers
`1..total_chunks`.  The oracle abstracts `call_gemini_api` (the prompt is a
deterministic function of the pass, the chunk and its context, so the
oracle receives the pass number, the chunk number and the chunk). -/
def pass1Fold (es : List Segment) (oracle : Nat → Nat → List IEntry → Option (List Char))
    (k : Nat) : Dict :=
  (List.range' 1 (v3TotalChunks es.length k)).foldl
    (fun acc c =>
      pass1ChunkMerge acc (sliceChunk es c k) (oracle 1 c ((sliceChunk es c k).map toIEntry)))
    []

/-- Pass 2 of `process_entries` (v3): same chunk loop (the chunk count is
still computed from `len(entries)`) over the pass-1 entries; a failed call
is skipped with no fallback (the pass-1 value is kept). -/
def pass2Fold (p1 : List IEntry) (oracle : Nat → Nat → List IEntry → Option (List Char))
    (k tc : Nat) (start : Dict) : Dict :=
  (List.range' 1 tc).foldl
    (fun acc c =>
      match oracle 2 c (sliceChunk p1 c k) with
      | some t => dictUpdate acc (parse_ai_response t (sliceChunk p1 c k))
      | none => acc)
    start

/-- `process_entries(entries, client, patterns)` (v3).  `k` and `twoPass`
model `CONFIG["chunk_size"]` and `CONFIG["enable_two_pass"]`; the v3
configuration is `k = 100`, `twoPass = true`.  After the oracle passes the
dictionary-substitution post-pass rewrites every value. -/
def process_entries (es : List Segment) (oracle : Nat → Nat → List IEntry → Option (List Char))
    (pats : Patterns) (k : Nat) (twoPass : Bool) : Dict :=
  let m1 := pass1Fold es oracle k
  let m2 :=
    if twoPass then
      pass2Fold ((sortByKey m1).map (fun p => (⟨p.1, p.2⟩ : IEntry))) oracle k
        (v3TotalChunks es.length k) m1
    else m1
  dictMapValues (fun t => apply_simple_replacements t pats) m2

/-!  The subtitle emitter. -/

/-- One SRT output record: the three lines
`{idx}`, `{start} --> {end}`, `{text}` written per entry by
`write_srt_file`. -/
structure SrtRecord where
  num : Nat
  start : List Char
  stop : List Char
  text : List Char
deriving DecidableEq, Repr

/-- `write_srt_file(entries, corrected_texts, output_path, remove_speaker)`
(v3; v2 is the `removeSpeaker = false` case): one record per entry in
order, text taken from the map with fallback to the entry's own text. -/
def write_srt_file (es : List Segment) (m : Dict) (removeSpeaker : Bool) : List SrtRecord :=
  es.map (fun e =>
    let t0 := (dictGet? m e.index).getD e.text
    let t1 := if removeSpeaker then remove_speaker_name t0 else t0
    ⟨e.index, vtt_time_to_srt_time e.start, vtt_time_to_srt_time e.stop, t1⟩)

/-- The correction step of `process_batch` (`process_vtt_ai.py`): build
`corrected_dict` and then execute
`for entry in entries: if entry['index'] in corrected_dict: entry['text'] = corrected_dict[...]`,
which overwrites the `text` field of the parsed entries themselves. -/
def ai_apply_corrections (es : List Segment) (corrected : List IEntry) : List Segment :=
  let cd := corrected.foldl (fun d e => dictInsert d e.index e.text) []
  es.map (fun e =>
    match dictGet? cd e.index with
    | some t => { e with text := t }
    | none => e)


/-!  Lemmas about the dict embedding. -/

theorem find?_of_contains_false (d : Dict) (k : Nat) (h : dictContains d k = false) :
    d.find? (fun p => p.1 == k) = none := by
  induction d with
  | nil => rfl
  | cons p d ih =>
    simp only [dictContains, List.any_cons, Bool.or_eq_false_iff] at h
    simp only [List.find?, h.1]
    exact ih h.2

theorem find?_map_replace_self (d : Dict) (k : Nat) (v : List Char) :
    (d.map (fun p => if p.1 == k then (k, v) else p)).find? (fun p => p.1 == k) =
      if dictContains d k then some (k, v) else none := by
  induction d with
  | nil => rfl
  | cons p d ih =>
    by_cases hp : p.1 = k
    · simp [dictContains, List.find?, hp]
    · have hb : (p.1 == k) = false := by simp [hp]
      simp only [List.map_cons, hb, Bool.false_eq_true, if_false, List.find?, ih,
        dictContains, List.any_cons, Bool.false_or]

theorem find?_map_replace_ne (d : Dict) (k : Nat) (v : List Char) (k' : Nat) (h : k' ≠ k) :
    (d.map (fun p => if p.1 == k then (k, v) else p)).find? (fun p => p.1 == k') =
      d.find? (fun p => p.1 == k') := by
  induction d with
  | nil => rfl
  | cons p d ih =>
    by_cases hp : p.1 = k
    · have h1 : (p.1 == k) = true := by simp [hp]
      have h2 : ((k : Nat) == k') = false := beq_eq_false_iff_ne.mpr (Ne.symm h)
      have h3 : (p.1 == k') = false := by rw [hp]; exact beq_eq_false_iff_ne.mpr (Ne.symm h)
      simp only [List.map_cons, h1, if_true, List.find?, h2, h3, ih]
    · have h1 : (p.1 == k) = false := by simp [hp]
      simp only [List.map_cons, h1, Bool.false_eq_true, if_false, List.find?]
      cases hq : (p.1 == k')
      · simp only [hq]
        exact ih
      · simp only [hq]

theorem find?_append_none (l₁ l₂ : Dict) (p : Nat × List Char → Bool)
    (h : l₁.find? p = none) : (l₁ ++ l₂).find? p = l₂.find? p := by
  induction l₁ with
  | nil => rfl
  | cons q l₁ ih =>
    simp only [List.find?] at h ⊢
    cases hq : p q with
    | true => rw [hq] at h; simp at h
    | false => rw [hq] at h; simp only [List.cons_append, List.find?, hq]; exact ih h

theorem dictGet?_insert (d : Dict) (k : Nat) (v : List Char) (k' : Nat) :
    dictGet? (dictInsert d k v) k' = if k' = k then some v else dictGet? d k' := by
  unfold dictInsert dictGet?
  by_cases hc : dictContains d k
  · simp only [hc, if_true]
    by_cases hk : k' = k
    · subst hk
      rw [find?_map_replace_self]
      simp [hc]
    · rw [find?_map_replace_ne d k v k' hk]
      simp [hk]
  · have hc' : dictContains d k = false := by simpa using hc
    simp only [hc', Bool.false_eq_true, if_false]
    by_cases hk : k' = k
    · subst hk
      rw [find?_append_none _ _ _ (find?_of_contains_false d k' hc')]
      simp [List.find?]
    · have h2 : List.find? (fun p => p.1 == k') [(k, v)] = none := by
        have hb : ((k : Nat) == k') = false := beq_eq_false_iff_ne.mpr (Ne.symm hk)
        simp [List.find?, hb]
      have hfind : (d ++ [(k, v)]).find? (fun p => p.1 == k') = d.find? (fun p => p.1 == k') := by
        clear hc hc'
        induction d with
        | nil => simpa using h2
        | cons r d ih =>
          simp only [List.cons_append, List.find?]
          cases hr : (r.1 == k')
          · simp only [hr]
            exact ih
          · simp only [hr]
      rw [hfind]
      simp [hk]

theorem dictContains_eq_isSome (d : Dict) (k : Nat) :
    dictContains d k = (dictGet? d k).isSome := by
  induction d with
  | nil => rfl
  | cons p d ih =>
    simp only [dictContains, dictGet?, List.any_cons, List.find?] at ih ⊢
    cases hp : (p.1 == k)
    · simp only [hp, Bool.false_or]
      exact ih
    · simp [hp]

theorem dictContains_insert (d : Dict) (k : Nat) (v : List Char) (k' : Nat) :
    dictContains (dictInsert d k v) k' = (k' == k || dictContains d k') := by
  rw [dictContains_eq_isSome, dictGet?_insert, dictContains_eq_isSome]
  by_cases h : k' = k <;> simp [h]

theorem dictContains_true_of_get (d : Dict) (k : Nat) (v : List Char)
    (h : dictGet? d k = some v) : dictContains d k = true := by
  rw [dictContains_eq_isSome, h]
  rfl

theorem dictGet?_of_contains_false (d : Dict) (k : Nat) (h : dictContains d k = false) :
    dictGet? d k = none := by
  rw [dictContains_eq_isSome] at h
  exact Option.not_isSome_iff_eq_none.mp (by simp [h])

/-!  Lemmas about `parse_ai_response` (claim C1).

The fallback fold of `parse_ai_response` is
`orig.foldl fallbackStep (extractResponse response)` with the step below.
-/

/-- One step of the fallback loop of `parse_ai_response`, abstracted over
the original dict `od`. -/
def fallbackStep (od : Dict) (acc : Dict) (e : IEntry) : Dict :=
  if dictContains acc e.index then acc
  else dictInsert acc e.index ((dictGet? od e.index).getD [])

theorem parse_ai_response_eq_fold (response : List Char) (orig : List IEntry) :
    parse_ai_response response orig =
      orig.foldl (fallbackStep (origDict orig)) (extractResponse response) := rfl

/-- A fallback step never removes a key. -/
theorem fallbackStep_contains_mono (od acc : Dict) (e : IEntry) (k : Nat)
    (h : dictContains acc k = true) : dictContains (fallbackStep od acc e) k = true := by
  unfold fallbackStep
  by_cases hc : dictContains acc e.index
  · simp [hc, h]
  · simp only [hc, Bool.false_eq_true, if_false, dictContains_insert, h, Bool.or_true]

theorem fallbackFold_contains_mono (od : Dict) (orig : List IEntry) (acc : Dict) (k : Nat)
    (h : dictContains acc k = true) :
    dictContains (orig.foldl (fallbackStep od) acc) k = true := by
  induction orig generalizing acc with
  | nil => exact h
  | cons e orig ih => exact ih _ (fallbackStep_contains_mono od acc e k h)

/-- After the fallback fold, every index of the batch is present. -/
theorem fallbackFold_contains_all (od : Dict) (orig : List IEntry) (acc : Dict) :
    ∀ e ∈ orig, dictContains (orig.foldl (fallbackStep od) acc) e.index = true := by
  induction orig generalizing acc with
  | nil => intro e he; cases he
  | cons e₀ orig ih =>
    intro e he
    rcases List.mem_cons.mp he with he | he
    · subst he
      rw [List.foldl_cons]
      apply fallbackFold_contains_mono
      unfold fallbackStep
      by_cases hc : dictContains acc e.index
      · simp [hc]
      · rw [if_neg hc, dictContains_insert]
        simp
    · rw [List.foldl_cons]
      exact ih _ e he

/-- Keys produced by the fallback fold come from the start dict or from the
batch. -/
theorem fallbackFold_contains_sub (od : Dict) (orig : List IEntry) (acc : Dict) (k : Nat)
    (h : dictContains (orig.foldl (fallbackStep od) acc) k = true) :
    dictContains acc k = true ∨ k ∈ orig.map IEntry.index := by
  induction orig generalizing acc with
  | nil => exact Or.inl h
  | cons e orig ih =>
    rcases ih _ h with h1 | h1
    · unfold fallbackStep at h1
      by_cases hc : dictContains acc e.index
      · rw [if_pos hc] at h1
        exact Or.inl h1
      · rw [if_neg hc] at h1
        rw [dictContains_insert] at h1
        rcases Bool.or_eq_true_iff.mp h1 with h2 | h2
        · right
          have he : k = e.index := eq_of_beq h2
          simp [he]
        · exact Or.inl h2
    · right
      simp [h1]

/-- An existing binding is never overwritten by the fallback fold. -/
theorem fallbackFold_get_preserved (od : Dict) (orig : List IEntry) (acc : Dict) (k : Nat)
    (v : List Char) (h : dictGet? acc k = some v) :
    dictGet? (orig.foldl (fallbackStep od) acc) k = some v := by
  induction orig generalizing acc with
  | nil => exact h
  | cons e orig ih =>
    apply ih
    unfold fallbackStep
    by_cases hc : dictContains acc e.index
    · simpa [hc]
    · rw [if_neg hc]
      by_cases hk : k = e.index
      · subst hk
        rw [dictContains_eq_isSome, h] at hc
        simp at hc
      · rw [dictGet?_insert]
        simpa [hk]

/-- A key never produced by the line scan receives the `origDict` value. -/
theorem fallbackFold_get_fallback (od : Dict) (orig : List IEntry) (acc : Dict) (k : Nat)
    (hstart : dictGet? acc k = none)
    (hod : ∀ e ∈ orig, ∃ v, dictGet? od e.index = some v) :
    dictGet? (orig.foldl (fallbackStep od) acc) k = none ∨
      dictGet? (orig.foldl (fallbackStep od) acc) k = dictGet? od k := by
  induction orig generalizing acc with
  | nil => exact Or.inl hstart
  | cons e orig ih =>
    by_cases hk : k = e.index
    · rw [List.foldl_cons]
      by_cases hc : dictContains acc e.index
      · rw [← hk, dictContains_eq_isSome, hstart] at hc
        simp at hc
      · have hstep : fallbackStep od acc e =
            dictInsert acc e.index ((dictGet? od e.index).getD []) := by
          unfold fallbackStep
          rw [if_neg hc]
        rw [hstep]
        rcases hod e (by simp) with ⟨v, hv⟩
        right
        have hgv : dictGet?
            (dictInsert acc e.index ((dictGet? od e.index).getD [])) k = some v := by
          rw [dictGet?_insert, if_pos hk, hv]
          rfl
        rw [fallbackFold_get_preserved od orig _ k v hgv, hk, hv]
    · have hstep : dictGet? (fallbackStep od acc e) k = none := by
        unfold fallbackStep
        by_cases hc : dictContains acc e.index
        · rw [if_pos hc]
          exact hstart
        · rw [if_neg hc, dictGet?_insert, if_neg hk]
          exact hstart
      rw [List.foldl_cons]
      exact ih _ hstep (fun e' he' => hod e' (List.mem_cons_of_mem _ he'))

/-- Keys are preserved by a fold of `dictInsert`s. -/
theorem insertFold_contains_mono {A : Type} (ix : A → Nat) (tx : A → List Char)
    (l : List A) (acc : Dict) (k : Nat) (h : dictContains acc k = true) :
    dictContains (l.foldl (fun d e => dictInsert d (ix e) (tx e)) acc) k = true := by
  induction l generalizing acc with
  | nil => exact h
  | cons e l ih =>
    rw [List.foldl_cons]
    apply ih
    rw [dictContains_insert, h, Bool.or_true]

/-- Every element's key is present after a fold of `dictInsert`s. -/
theorem insertFold_contains_all {A : Type} (ix : A → Nat) (tx : A → List Char)
    (l : List A) (acc : Dict) :
    ∀ e ∈ l, dictContains (l.foldl (fun d e => dictInsert d (ix e) (tx e)) acc) (ix e) = true := by
  induction l generalizing acc with
  | nil => intro e he; cases he
  | cons e₀ l ih =>
    intro e he
    rcases List.mem_cons.mp he with he | he
    · subst he
      rw [List.foldl_cons]
      apply insertFold_contains_mono
      rw [dictContains_insert]
      simp
    · rw [List.foldl_cons]
      exact ih _ e he

/-- A fold of `dictInsert`s over elements with other keys does not change a
lookup. -/
theorem insertFold_get_other {A : Type} (ix : A → Nat) (tx : A → List Char)
    (l : List A) (acc : Dict) (k : Nat) (h : ∀ e ∈ l, ix e ≠ k) :
    dictGet? (l.foldl (fun d e => dictInsert d (ix e) (tx e)) acc) k = dictGet? acc k := by
  induction l generalizing acc with
  | nil => rfl
  | cons e l ih =>
    rw [List.foldl_cons, ih _ (fun e' he' => h e' (List.mem_cons_of_mem _ he')),
      dictGet?_insert, if_neg (fun hkk => h e (by simp) hkk.symm)]

/-- With pairwise-distinct keys, a fold of `dictInsert`s binds every
element's key to that element's value. -/
theorem insertFold_get_self {A : Type} (ix : A → Nat) (tx : A → List Char)
    (l : List A) (acc : Dict) (hnd : List.Pairwise (fun a b => ix a ≠ ix b) l) :
    ∀ e ∈ l, dictGet? (l.foldl (fun d e => dictInsert d (ix e) (tx e)) acc) (ix e) =
      some (tx e) := by
  induction l generalizing acc with
  | nil => intro e he; cases he
  | cons e₀ l ih =>
    intro e he
    rcases List.mem_cons.mp he with he | he
    · subst he
      rw [List.foldl_cons,
        insertFold_get_other ix tx l _ (ix e)
          (fun e' he' => ((List.pairwise_cons.mp hnd).1 e' he').symm),
        dictGet?_insert, if_pos rfl]
    · rw [List.foldl_cons]
      exact ih _ (List.pairwise_cons.mp hnd).2 e he

/-- Every index of a batch has a binding in `origDict`. -/
theorem origDict_contains_all (orig : List IEntry) :
    ∀ e ∈ orig, ∃ v, dictGet? (origDict orig) e.index = some v := by
  intro e he
  have h := insertFold_contains_all IEntry.index IEntry.text orig [] e he
  rw [dictContains_eq_isSome] at h
  exact Option.isSome_iff_exists.mp h

/-- C1, amended.  For every oracle response text and every batch,
`parse_ai_response` is total and: (i) every index of the batch receives a
value; (ii) keys of the result come only from the batch or from the
bracketed-index lines of the response; (iii) a batch index for which the
line scan extracted nothing receives that entry's original text (the
`original_dict` value); (iv) a key extracted from the response keeps its
extracted value.  (The claim's further assertion that indices in the
response that are not in the batch are *absent* from the result is false:
see the counterexample.) -/
theorem c1_response_parser_fallback (response : List Char) (orig : List IEntry) :
    (∀ e ∈ orig, ∃ v, dictGet? (parse_ai_response response orig) e.index = some v) ∧
    (∀ k, dictContains (parse_ai_response response orig) k = true →
      k ∈ orig.map IEntry.index ∨ dictContains (extractResponse response) k = true) ∧
    (∀ e ∈ orig, dictContains (extractResponse response) e.index = false →
      dictGet? (parse_ai_response response orig) e.index =
        dictGet? (origDict orig) e.index) ∧
    (∀ k, dictContains (extractResponse response) k = true →
      dictGet? (parse_ai_response response orig) k = dictGet? (extractResponse response) k) := by
  rw [parse_ai_response_eq_fold]
  refine ⟨?_, ?_, ?_, ?_⟩
  · intro e he
    have h := fallbackFold_contains_all (origDict orig) orig (extractResponse response) e he
    rw [dictContains_eq_isSome] at h
    exact Option.isSome_iff_exists.mp h
  · intro k hk
    rcases fallbackFold_contains_sub (origDict orig) orig (extractResponse response) k hk
      with h | h
    · exact Or.inr h
    · exact Or.inl h
  · intro e he hex
    have hstart := dictGet?_of_contains_false _ _ hex
    rcases fallbackFold_get_fallback (origDict orig) orig (extractResponse response) e.index
      hstart (origDict_contains_all orig) with h | h
    · exfalso
      have hall := fallbackFold_contains_all (origDict orig) orig (extractResponse response) e he
      rw [dictContains_eq_isSome, h] at hall
      simp at hall
    · exact h
  · intro k hk
    rw [dictContains_eq_isSome] at hk
    rcases Option.isSome_iff_exists.mp hk with ⟨v, hv⟩
    rw [fallbackFold_get_preserved (origDict orig) orig _ k v hv, hv]

/-- Witness for C1: a batch entry always receives a value, here on a
response with no bracketed lines at all. -/
theorem c1_witness :
    ∃ v, dictGet? (parse_ai_response ("no tags here".toList) [⟨1, "orig".toList⟩]) 1 =
      some v :=
  (c1_response_parser_fallback ("no tags here".toList) [⟨1, "orig".toList⟩]).1
    ⟨1, "orig".toList⟩ (by simp)

/-- Counterexample to C1 as stated: for the batch `[{1, "a"}]` and the
response `"[2] x"`, the returned map contains the key `2`, which is not an
index of any segment of the batch, so the key set is not exactly the
batch's index set. -/
theorem c1_counterexample :
    dictContains (parse_ai_response ("[2] x".toList) [⟨1, "a".toList⟩]) 2 = true ∧
      ∀ e ∈ [(⟨1, "a".toList⟩ : IEntry)], e.index ≠ 2 := by
  constructor
  · decide
  · decide

/-!  Lemmas about `pyStrip` and the parser loop (claims C3 and C10). -/

theorem dropWhile_head_not {p : Char → Bool} {l t : List Char} {c : Char}
    (h : l.dropWhile p = c :: t) : p c = false := by
  induction l with
  | nil => simp at h
  | cons a l ih =>
    rw [List.dropWhile_cons] at h
    by_cases ha : p a
    · rw [if_pos ha] at h
      exact ih h
    · rw [if_neg ha] at h
      cases h
      simpa using ha

theorem dropWhile_idem (p : Char → Bool) (l : List Char) :
    (l.dropWhile p).dropWhile p = l.dropWhile p := by
  cases h : l.dropWhile p with
  | nil => rfl
  | cons c t => rw [List.dropWhile_cons, dropWhile_head_not h, if_neg (by simp)]

theorem pyStrip_prefix_dropWhile (s : List Char) :
    pyStrip s <+: s.dropWhile isPySpace := by
  rw [← List.reverse_suffix]
  unfold pyStrip
  rw [List.reverse_reverse]
  exact List.dropWhile_suffix _

theorem pyStrip_head_not {s t : List Char} {c : Char} (h : pyStrip s = c :: t) :
    isPySpace c = false := by
  rcases pyStrip_prefix_dropWhile s with ⟨w, hw⟩
  rw [h] at hw
  exact dropWhile_head_not hw.symm

theorem pyStrip_reverse_head_not {s t : List Char} {c : Char}
    (h : (pyStrip s).reverse = c :: t) : isPySpace c = false := by
  unfold pyStrip at h
  rw [List.reverse_reverse] at h
  exact dropWhile_head_not h

theorem pyStrip_idem (s : List Char) : pyStrip (pyStrip s) = pyStrip s := by
  have h1 : (pyStrip s).dropWhile isPySpace = pyStrip s := by
    cases h : pyStrip s with
    | nil => rfl
    | cons c t => rw [List.dropWhile_cons, pyStrip_head_not h, if_neg (by simp)]
  have h2 : (pyStrip s).reverse.dropWhile isPySpace = (pyStrip s).reverse := by
    cases h : (pyStrip s).reverse with
    | nil => rfl
    | cons c t => rw [List.dropWhile_cons, pyStrip_reverse_head_not h, if_neg (by simp)]
  show (((pyStrip s).dropWhile isPySpace).reverse.dropWhile isPySpace).reverse = pyStrip s
  rw [h1, h2, List.reverse_reverse]

theorem pyStrip_infix_self (s : List Char) : pyStrip s <:+: s := by
  rcases pyStrip_prefix_dropWhile s with ⟨w₁, h₁⟩
  rcases List.dropWhile_suffix (l := s) isPySpace with ⟨w₂, h₂⟩
  exact ⟨w₂, w₁, by rw [List.append_assoc, h₁, h₂]⟩

/-- Every entry produced by the parser loop carries an index at least the
current enumeration counter. -/
theorem vttEntriesGo_lb (ms : List (List Char × List Char × List Char)) (i : Nat) :
    ∀ e ∈ vttEntriesGo i ms, i ≤ e.index := by
  induction ms generalizing i with
  | nil => intro e he; cases he
  | cons m ms ih =>
    intro e he
    rcases m with ⟨st, en, tx⟩
    unfold vttEntriesGo at he
    by_cases ht : pyStrip tx = []
    · rw [if_pos ht] at he
      exact Nat.le_of_succ_le (ih (i + 1) e he)
    · rw [if_neg ht] at he
      rcases List.mem_cons.mp he with he | he
      · subst he
        exact Nat.le_refl _
      · exact Nat.le_of_succ_le (ih (i + 1) e he)

/-- The indices produced by the parser loop are strictly increasing. -/
theorem vttEntriesGo_chain (ms : List (List Char × List Char × List Char)) (i : Nat) :
    List.Chain' (· < ·) ((vttEntriesGo i ms).map Segment.index) := by
  induction ms generalizing i with
  | nil => simp [vttEntriesGo]
  | cons m ms ih =>
    rcases m with ⟨st, en, tx⟩
    unfold vttEntriesGo
    by_cases ht : pyStrip tx = []
    · rw [if_pos ht]
      exact ih (i + 1)
    · rw [if_neg ht]
      rw [List.map_cons, List.chain'_cons']
      refine ⟨?_, ih (i + 1)⟩
      intro b hb
      have hbm : b ∈ (vttEntriesGo (i + 1) ms).map Segment.index :=
        List.mem_of_mem_head? hb
      rcases List.mem_map.mp hbm with ⟨e, he, hbe⟩
      have hle := vttEntriesGo_lb ms (i + 1) e he
      rw [hbe] at hle
      show i < b
      omega

/-- Each parsed entry comes from a match: its timestamps are the match's
groups and its text is the stripped, non-empty match text. -/
theorem vttEntriesGo_mem (ms : List (List Char × List Char × List Char)) (i : Nat) :
    ∀ e ∈ vttEntriesGo i ms, ∃ m ∈ ms,
      e.start = m.1 ∧ e.stop = m.2.1 ∧ e.text = pyStrip m.2.2 ∧ pyStrip m.2.2 ≠ [] := by
  induction ms generalizing i with
  | nil => intro e he; cases he
  | cons m ms ih =>
    intro e he
    rcases m with ⟨st, en, tx⟩
    unfold vttEntriesGo at he
    by_cases ht : pyStrip tx = []
    · rw [if_pos ht] at he
      rcases ih (i + 1) e he with ⟨m, hm, h⟩
      exact ⟨m, List.mem_cons_of_mem _ hm, h⟩
    · rw [if_neg ht] at he
      rcases List.mem_cons.mp he with he | he
      · subst he
        exact ⟨(st, en, tx), by simp, rfl, rfl, rfl, ht⟩
      · rcases ih (i + 1) e he with ⟨m, hm, h⟩
        exact ⟨m, List.mem_cons_of_mem _ hm, h⟩

/-- When no match is dropped, the parser loop numbers the matches
`i, i+1, ...` densely. -/
theorem vttEntriesGo_dense (ms : List (List Char × List Char × List Char)) (i : Nat)
    (h : ∀ m ∈ ms, pyStrip m.2.2 ≠ []) :
    (vttEntriesGo i ms).map Segment.index = List.range' i ms.length := by
  induction ms generalizing i with
  | nil => rfl
  | cons m ms ih =>
    rcases m with ⟨st, en, tx⟩
    unfold vttEntriesGo
    rw [if_neg (h (st, en, tx) (by simp))]
    rw [List.map_cons, List.length_cons, List.range'_succ,
      ih (i + 1) (fun m hm => h m (List.mem_cons_of_mem _ hm))]

/-- C10 (confirmed).  `read_vtt_file` is a total function of the input
text, the indices of the returned segments are strictly increasing (hence
pairwise distinct), and every returned text is non-empty and invariant
under stripping (no leading or trailing whitespace). -/
theorem c10_parser_invariants (content : List Char) :
    List.Chain' (· < ·) ((read_vtt_file content).map Segment.index) ∧
    (∀ e ∈ read_vtt_file content, e.text ≠ [] ∧ pyStrip e.text = e.text) := by
  constructor
  · exact vttEntriesGo_chain (vttFindall content) 1
  · intro e he
    rcases vttEntriesGo_mem (vttFindall content) 1 e he with ⟨m, _, _, _, htext, hne⟩
    constructor
    · rw [htext]
      exact hne
    · rw [htext]
      exact pyStrip_idem _

/-- Witness for C10 at a concrete transcript. -/
theorem c10_witness :
    List.Chain' (· < ·)
      ((read_vtt_file ("00:00:01.000 --> 00:00:02.000\nhello\n".toList)).map Segment.index) ∧
    (⟨1, "00:00:01.000".toList, "00:00:02.000".toList, "hello".toList⟩ : Segment).text ≠ [] ∧
      pyStrip (⟨1, "00:00:01.000".toList, "00:00:02.000".toList,
        "hello".toList⟩ : Segment).text =
        (⟨1, "00:00:01.000".toList, "00:00:02.000".toList, "hello".toList⟩ : Segment).text :=
  ⟨(c10_parser_invariants ("00:00:01.000 --> 00:00:02.000\nhello\n".toList)).1,
    (c10_parser_invariants ("00:00:01.000 --> 00:00:02.000\nhello\n".toList)).2
      ⟨1, "00:00:01.000".toList, "00:00:02.000".toList, "hello".toList⟩ (by decide)⟩

/-- A transcript whose first cue's text is whitespace-only: the first block
is dropped but its enumeration index is still consumed. -/
def vttDropExample : List Char :=
  "00:00:01.000 --> 00:00:02.000\n \n\n00:00:03.000 --> 00:00:04.000\nhello\n".toList

/-- C3, amended.  `read_vtt_file` is total; a block whose stripped text is
empty is dropped from the output, but it *does* consume an enumeration
index (the counter advances over all regex matches): the retained indices
are strictly increasing, and they are the dense sequence `1, ..., n`
exactly when no matched block is dropped (then the parser keeps one entry
per match). -/
theorem c3_parser_indices (content : List Char) :
    List.Chain' (· < ·) ((read_vtt_file content).map Segment.index) ∧
    ((∀ m ∈ vttFindall content, pyStrip m.2.2 ≠ []) →
      (read_vtt_file content).map Segment.index =
        List.range' 1 (vttFindall content).length) := by
  refine ⟨vttEntriesGo_chain (vttFindall content) 1, ?_⟩
  intro h
  exact vttEntriesGo_dense (vttFindall content) 1 h

/-- Witness for C3: on a transcript with two retained blocks the indices
are the dense sequence `[1, 2]`. -/
theorem c3_witness :
    (read_vtt_file
      ("00:00:01.000 --> 00:00:02.000\nhello\n\n00:00:02.000 --> 00:00:03.000\nworld\n".toList)).map
        Segment.index = List.range' 1 2 :=
  (c3_parser_indices
    ("00:00:01.000 --> 00:00:02.000\nhello\n\n00:00:02.000 --> 00:00:03.000\nworld\n".toList)).2
    (by decide)

/-- Counterexample to C3 as stated: on `vttDropExample` the first block's
text strips to empty and is dropped, yet it consumes index 1, so the one
retained segment has index 2 — not the dense sequence `[1]` the claim
requires. -/
theorem c3_counterexample :
    (read_vtt_file vttDropExample).map Segment.index = [2] ∧ ([2] : List Nat) ≠ [1] := by
  constructor
  · decide
  · decide

/-!  Timestamp reformatting (claims C2 and C9). -/

theorem pyReplaceFuel_single (a b : Char) :
    ∀ (f : Nat) (s : List Char), s.length ≤ f →
      pyReplaceFuel f [a] [b] s = s.map (fun c => if c == a then b else c) := by
  intro f
  induction f with
  | zero =>
    intro s hs
    have : s = [] := List.eq_nil_of_length_eq_zero (Nat.le_zero.mp hs)
    subst this
    rfl
  | succ f ih =>
    intro s hs
    cases s with
    | nil => rfl
    | cons c rest =>
      unfold pyReplaceFuel
      by_cases hc : c = a
      · subst hc
        have hpre : ([c].isPrefixOf (c :: rest)) = true := by
          simp [List.isPrefixOf]
        rw [if_pos (by simp [hpre, List.isEmpty])]
        simp only [List.map_cons, beq_self_eq_true, if_true, List.length_singleton,
          List.drop_succ_cons, List.drop_zero, List.singleton_append]
        rw [ih rest (by simpa using Nat.le_of_succ_le_succ hs)]
      · have hane : a ≠ c := fun h => hc h.symm
        have hpre : ([a].isPrefixOf (c :: rest)) = false := by
          simp [List.isPrefixOf, hane]
        rw [if_neg (by simp [hpre])]
        have hbc : (c == a) = false := beq_eq_false_iff_ne.mpr hc
        simp only [List.map_cons, hbc, Bool.false_eq_true, if_false]
        rw [ih rest (by simpa using Nat.le_of_succ_le_succ hs)]

theorem pyReplace_single (a b : Char) (s : List Char) :
    pyReplace [a] [b] s = s.map (fun c => if c == a then b else c) :=
  pyReplaceFuel_single a b s.length s (Nat.le_refl _)

/-- The exact shape `\d{2}:\d{2}:\d{2}\.\d{3}` of a timestamp group. -/
def tsShapeB : List Char → Bool
  | [c1, c2, c3, c4, c5, c6, c7, c8, c9, c10, c11, c12] =>
    c1.isDigit && c2.isDigit && c3 == ':' && c4.isDigit && c5.isDigit && c6 == ':' &&
      c7.isDigit && c8.isDigit && c9 == '.' && c10.isDigit && c11.isDigit && c12.isDigit
  | _ => false

theorem matchTS_shape {s ts r : List Char} (h : matchTS s = some (ts, r)) :
    tsShapeB ts = true := by
  unfold matchTS at h
  split at h
  · split at h
    · rename_i hcond
      cases h
      simpa [tsShapeB] using hcond
    · cases h
  · cases h

theorem isDigit_ne_dot {c : Char} (h : c.isDigit = true) : c ≠ '.' := by
  intro hc
  subst hc
  exact absurd h (by decide)

/-- A timestamp of the matched shape decomposes around its unique period,
and `vtt_time_to_srt_time` changes exactly that period into a comma. -/
theorem tsShape_split {ts : List Char} (h : tsShapeB ts = true) :
    ∃ A B, ts = A ++ '.' :: B ∧ vtt_time_to_srt_time ts = A ++ ',' :: B ∧
      '.' ∉ A ∧ '.' ∉ B := by
  match ts, h with
  | [c1, c2, c3, c4, c5, c6, c7, c8, c9, c10, c11, c12], h =>
    simp only [tsShapeB, Bool.and_eq_true, beq_iff_eq] at h
    obtain ⟨⟨⟨⟨⟨⟨⟨⟨⟨⟨⟨h1, h2⟩, h3⟩, h4⟩, h5⟩, h6⟩, h7⟩, h8⟩, h9⟩, h10⟩, h11⟩, h12⟩ := h
    refine ⟨[c1, c2, c3, c4, c5, c6, c7, c8], [c10, c11, c12], ?_, ?_, ?_, ?_⟩
    · simp [h9]
    · rw [vtt_time_to_srt_time, pyReplace_single]
      subst h3; subst h6; subst h9
      simp only [List.map_cons, List.map_nil]
      rw [beq_eq_false_iff_ne.mpr (isDigit_ne_dot h1),
        beq_eq_false_iff_ne.mpr (isDigit_ne_dot h2),
        beq_eq_false_iff_ne.mpr (isDigit_ne_dot h4),
        beq_eq_false_iff_ne.mpr (isDigit_ne_dot h5),
        beq_eq_false_iff_ne.mpr (isDigit_ne_dot h7),
        beq_eq_false_iff_ne.mpr (isDigit_ne_dot h8),
        beq_eq_false_iff_ne.mpr (isDigit_ne_dot h10),
        beq_eq_false_iff_ne.mpr (isDigit_ne_dot h11),
        beq_eq_false_iff_ne.mpr (isDigit_ne_dot h12)]
      simp
    · subst h3; subst h6
      intro hmem
      rcases List.mem_cons.mp hmem with hx | hmem
      · exact isDigit_ne_dot h1 hx.symm
      rcases List.mem_cons.mp hmem with hx | hmem
      · exact isDigit_ne_dot h2 hx.symm
      rcases List.mem_cons.mp hmem with hx | hmem
      · exact absurd hx.symm (by decide)
      rcases List.mem_cons.mp hmem with hx | hmem
      · exact isDigit_ne_dot h4 hx.symm
      rcases List.mem_cons.mp hmem with hx | hmem
      · exact isDigit_ne_dot h5 hx.symm
      rcases List.mem_cons.mp hmem with hx | hmem
      · exact absurd hx.symm (by decide)
      rcases List.mem_cons.mp hmem with hx | hmem
      · exact isDigit_ne_dot h7 hx.symm
      rcases List.mem_cons.mp hmem with hx | hmem
      · exact isDigit_ne_dot h8 hx.symm
      cases hmem
    · intro hmem
      rcases List.mem_cons.mp hmem with hx | hmem
      · exact isDigit_ne_dot h10 hx.symm
      rcases List.mem_cons.mp hmem with hx | hmem
      · exact isDigit_ne_dot h11 hx.symm
      rcases List.mem_cons.mp hmem with hx | hmem
      · exact isDigit_ne_dot h12 hx.symm
      cases hmem

theorem tryMatch_shape {s : List Char} {t1 t2 tx r : List Char}
    (h : tryMatch s = some ((t1, t2, tx), r)) :
    tsShapeB t1 = true ∧ tsShapeB t2 = true := by
  unfold tryMatch at h
  cases hm1 : matchTS s with
  | none => rw [hm1] at h; cases h
  | some p1 =>
    rcases p1 with ⟨ts1, r1⟩
    rw [hm1] at h
    simp only at h
    split at h
    · rename_i r3 heq
      cases hm2 : matchTS (r3.dropWhile isPySpace) with
      | none => rw [hm2] at h; cases h
      | some p2 =>
        rcases p2 with ⟨ts2, r5⟩
        rw [hm2] at h
        simp only at h
        cases hnl : dropToNL r5 with
        | none => rw [hnl] at h; cases h
        | some r6 =>
          rw [hnl] at h
          simp only at h
          cases h
          exact ⟨matchTS_shape hm1, matchTS_shape hm2⟩
    · cases h

theorem vttFindallFuel_shape :
    ∀ (fuel : Nat) (s : List Char) (m : List Char × List Char × List Char),
      m ∈ vttFindallFuel fuel s → tsShapeB m.1 = true ∧ tsShapeB m.2.1 = true := by
  intro fuel
  induction fuel with
  | zero => intro s m hm; cases hm
  | succ f ih =>
    intro s m hm
    cases s with
    | nil => cases hm
    | cons c cs =>
      unfold vttFindallFuel at hm
      cases ht : tryMatch (c :: cs) with
      | none =>
        rw [ht] at hm
        exact ih cs m hm
      | some p =>
        rcases p with ⟨⟨t1, t2, tx⟩, rest⟩
        rw [ht] at hm
        rcases List.mem_cons.mp hm with hm | hm
        · subst hm
          exact tryMatch_shape ht
        · exact ih rest m hm

/-- Every segment returned by `read_vtt_file` has start and end timestamps
of the exact matched shape `\d{2}:\d{2}:\d{2}\.\d{3}`. -/
theorem read_vtt_file_ts_shape (content : List Char) :
    ∀ e ∈ read_vtt_file content, tsShapeB e.start = true ∧ tsShapeB e.stop = true := by
  intro e he
  rcases vttEntriesGo_mem (vttFindall content) 1 e he with ⟨m, hm, hst, hen, _, _⟩
  have := vttFindallFuel_shape (content.length + 1) content m hm
  rw [hst, hen]
  exact this

/-- C2, amended.  `write_srt_file` writes exactly one record per parsed
segment, in original order; the set of indices written is exactly the
parser's index set (strictly increasing, so no gaps beyond the parser's
own, no duplicates, no reordering); each record carries the segment's
parser-assigned index as its record number — which equals the 1-based
sequential position exactly when the parser dropped no block — the
timestamps with exactly the decimal-second period changed to a comma and
nothing else, and the map's text for the index with fallback to the
segment's original text. -/
theorem c2_emitter_records (content : List Char) (m : Dict) :
    (write_srt_file (read_vtt_file content) m false).length =
      (read_vtt_file content).length ∧
    (write_srt_file (read_vtt_file content) m false).map SrtRecord.num =
      (read_vtt_file content).map Segment.index ∧
    List.Chain' (· < ·)
      ((write_srt_file (read_vtt_file content) m false).map SrtRecord.num) ∧
    (∀ i (h1 : i < (read_vtt_file content).length)
        (h2 : i < (write_srt_file (read_vtt_file content) m false).length),
      (write_srt_file (read_vtt_file content) m false).get ⟨i, h2⟩ =
        ⟨((read_vtt_file content).get ⟨i, h1⟩).index,
          vtt_time_to_srt_time ((read_vtt_file content).get ⟨i, h1⟩).start,
          vtt_time_to_srt_time ((read_vtt_file content).get ⟨i, h1⟩).stop,
          (dictGet? m ((read_vtt_file content).get ⟨i, h1⟩).index).getD
            ((read_vtt_file content).get ⟨i, h1⟩).text⟩) ∧
    (∀ e ∈ read_vtt_file content,
      (∃ A B, e.start = A ++ '.' :: B ∧ vtt_time_to_srt_time e.start = A ++ ',' :: B ∧
        '.' ∉ A ∧ '.' ∉ B) ∧
      (∃ A B, e.stop = A ++ '.' :: B ∧ vtt_time_to_srt_time e.stop = A ++ ',' :: B ∧
        '.' ∉ A ∧ '.' ∉ B)) ∧
    ((∀ mt ∈ vttFindall content, pyStrip mt.2.2 ≠ []) →
      (write_srt_file (read_vtt_file content) m false).map SrtRecord.num =
        List.range' 1 (vttFindall content).length) := by
  have hmapnum : (write_srt_file (read_vtt_file content) m false).map SrtRecord.num =
      (read_vtt_file content).map Segment.index := by
    unfold write_srt_file
    rw [List.map_map]
    rfl
  refine ⟨?_, hmapnum, ?_, ?_, ?_, ?_⟩
  · unfold write_srt_file
    rw [List.length_map]
  · rw [hmapnum]
    exact vttEntriesGo_chain (vttFindall content) 1
  · intro i h1 h2
    unfold write_srt_file
    simp [List.get_eq_getElem, List.getElem_map]
  · intro e he
    rcases read_vtt_file_ts_shape content e he with ⟨hs, ht⟩
    exact ⟨tsShape_split hs, tsShape_split ht⟩
  · intro h
    rw [hmapnum]
    exact vttEntriesGo_dense (vttFindall content) 1 h

/-- Witness for C2 on a concrete two-cue transcript: the first emitted
record has number 1, comma timestamps and the map's text for index 1. -/
theorem c2_witness :
    (write_srt_file
        (read_vtt_file
          ("00:00:01.000 --> 00:00:02.000\nhello\n\n00:00:02.000 --> 00:00:03.000\nworld\n".toList))
        [(1, "fixed".toList)] false).get ⟨0, by decide⟩ =
      ⟨1, "00:00:01,000".toList, "00:00:02,000".toList, "fixed".toList⟩ := by
  have h := (c2_emitter_records
    ("00:00:01.000 --> 00:00:02.000\nhello\n\n00:00:02.000 --> 00:00:03.000\nworld\n".toList)
    [(1, "fixed".toList)]).2.2.2.1 0 (by decide) (by decide)
  rw [h]
  decide

/-- Counterexample to C2 as stated: on `vttDropExample` the single emitted
record carries record number 2 (the segment's parser index), not the
1-based sequential record number 1. -/
theorem c2_counterexample :
    (write_srt_file (read_vtt_file vttDropExample) [] false).map SrtRecord.num = [2] ∧
      ((write_srt_file (read_vtt_file vttDropExample) [] false).map SrtRecord.num ≠
        List.range' 1 (write_srt_file (read_vtt_file vttDropExample) [] false).length) := by
  constructor
  · decide
  · decide

/-!  The rule-based corrector (claim C5). -/

theorem pyReplaceFuel_of_no_occurrence (old new : List Char) :
    ∀ (f : Nat) (s : List Char), s.length ≤ f → ¬ old <:+: s →
      pyReplaceFuel f old new s = s := by
  intro f
  induction f with
  | zero =>
    intro s hs _
    have : s = [] := List.eq_nil_of_length_eq_zero (Nat.le_zero.mp hs)
    subst this
    rfl
  | succ f ih =>
    intro s hs hinf
    cases s with
    | nil =>
      unfold pyReplaceFuel
      have hcond : (!old.isEmpty && old.isPrefixOf ([] : List Char)) = false := by
        cases old with
        | nil => rfl
        | cons a o => rw [Bool.and_eq_false_iff]; exact Or.inr rfl
      rw [if_neg (by simp [hcond])]
    | cons c rest =>
      unfold pyReplaceFuel
      have hcond : (!old.isEmpty && old.isPrefixOf (c :: rest)) = false := by
        cases hpre : old.isPrefixOf (c :: rest)
        · simp
        · exfalso
          apply hinf
          have hp : old <+: c :: rest := List.isPrefixOf_iff_prefix.mp hpre
          exact hp.isInfix
      rw [if_neg (by simp [hcond])]
      show c :: pyReplaceFuel f old new rest = c :: rest
      rw [ih rest (by simpa using Nat.le_of_succ_le_succ hs)
        (fun hi => hinf (List.infix_cons hi))]

theorem pyReplace_of_no_occurrence (old new s : List Char) (h : ¬ old <:+: s) :
    pyReplace old new s = s :=
  pyReplaceFuel_of_no_occurrence old new s.length s (Nat.le_refl _) h

theorem foldReplace_id (ps : List (List Char × List Char)) (t : List Char)
    (h : ∀ p ∈ ps, ¬ p.1 <:+: t) :
    ps.foldl (fun s p => pyReplace p.1 p.2 s) t = t := by
  induction ps with
  | nil => rfl
  | cons p ps ih =>
    rw [List.foldl_cons, pyReplace_of_no_occurrence p.1 p.2 t (h p (by simp))]
    exact ih (fun q hq => h q (List.mem_cons_of_mem _ hq))

theorem foldDelete_id (fs : List (List Char)) (t : List Char)
    (h : ∀ fw ∈ fs, ¬ fw <:+: t) :
    fs.foldl (fun s fw => pyReplace fw [] s) t = t := by
  induction fs with
  | nil => rfl
  | cons fw fs ih =>
    rw [List.foldl_cons, pyReplace_of_no_occurrence fw [] t (h fw (by simp))]
    exact ih (fun q hq => h q (List.mem_cons_of_mem _ hq))

/-- On an input containing no filler and no substitution trigger, the
rule-based corrector only strips whitespace. -/
theorem correct_entry_text_trigger_free (t : List Char)
    (hf : ∀ p ∈ fillerList, ¬ p <:+: t)
    (hr : ∀ p ∈ replacePairs, ¬ p.1 <:+: t) :
    correct_entry_text t = pyStrip t := by
  unfold correct_entry_text
  rw [foldDelete_id fillerList t hf, foldReplace_id replacePairs t hr]

/-- C5, amended.  The shipped rule-based corrector `correct_entry_text` is
idempotent on every input that contains no occurrence of a filler or
substitution trigger (it then only strips whitespace, which is
idempotent); it is *not* idempotent in general, because deleting a filler
can concatenate the surrounding characters into a new filler occurrence
(see the counterexample). -/
theorem c5_rule_corrector_idempotent (t : List Char)
    (hf : ∀ p ∈ fillerList, ¬ p <:+: t)
    (hr : ∀ p ∈ replacePairs, ¬ p.1 <:+: t) :
    correct_entry_text (correct_entry_text t) = correct_entry_text t := by
  have h1 : correct_entry_text t = pyStrip t := correct_entry_text_trigger_free t hf hr
  have hf' : ∀ p ∈ fillerList, ¬ p <:+: pyStrip t :=
    fun p hp hi => hf p hp (hi.trans (pyStrip_infix_self t))
  have hr' : ∀ p ∈ replacePairs, ¬ p.1 <:+: pyStrip t :=
    fun p hp hi => hr p hp (hi.trans (pyStrip_infix_self t))
  rw [h1, correct_entry_text_trigger_free (pyStrip t) hf' hr', pyStrip_idem]

/-- Witness for C5 on a trigger-free input. -/
theorem c5_witness :
    correct_entry_text (correct_entry_text ("hello world".toList)) =
      correct_entry_text ("hello world".toList) :=
  c5_rule_corrector_idempotent ("hello world".toList) (by decide) (by decide)

/-- Counterexample to C5 as stated: on the input `えあのーー`, deleting the
filler `あのー` produces `えー`, which is itself a filler, so a second
application deletes it and the corrector is not idempotent. -/
theorem c5_counterexample :
    correct_entry_text (correct_entry_text ("えあのーー".toList)) ≠
      correct_entry_text ("えあのーー".toList) := by
  decide

/-!  The batch scheduler's chunking (claims C7 and C4). -/

theorem v3TotalChunks_zero (k : Nat) (hk : 0 < k) : v3TotalChunks 0 k = 0 :=
  Nat.div_eq_of_lt (by omega)

theorem v3TotalChunks_succ (n k : Nat) (hk : 0 < k) (hn : 0 < n) :
    v3TotalChunks n k = v3TotalChunks (n - k) k + 1 := by
  unfold v3TotalChunks
  rcases le_or_lt n k with h | h
  · have h1 : n - k = 0 := by omega
    rw [h1]
    have h2 : (0 + k - 1) / k = 0 := Nat.div_eq_of_lt (by omega)
    rw [h2]
    exact Nat.div_eq_of_lt_le (by omega) (by omega)
  · have h1 : n + k - 1 = n - k + k - 1 + k := by omega
    rw [h1, Nat.add_div_right _ hk]

theorem splitBatchesFuel_nil {α : Type} (f k : Nat) :
    splitBatchesFuel (α := α) f [] k = [] := by
  cases f <;> rfl

theorem splitBatchesFuel_join {α : Type} (k : Nat) (hk : 0 < k) :
    ∀ (f : Nat) (l : List α), l.length ≤ f → (splitBatchesFuel f l k).flatten = l := by
  intro f
  induction f with
  | zero =>
    intro l hl
    have : l = [] := List.eq_nil_of_length_eq_zero (Nat.le_zero.mp hl)
    subst this
    rfl
  | succ f ih =>
    intro l hl
    cases l with
    | nil => rfl
    | cons x xs =>
      show ((x :: xs).take k :: splitBatchesFuel f ((x :: xs).drop k) k).flatten = x :: xs
      rw [List.flatten_cons, ih ((x :: xs).drop k) (by simp only [List.length_drop, List.length_cons] at hl ⊢; omega),
        List.take_append_drop]

theorem splitBatchesFuel_length {α : Type} (k : Nat) (hk : 0 < k) :
    ∀ (f : Nat) (l : List α), l.length ≤ f →
      (splitBatchesFuel f l k).length = v3TotalChunks l.length k := by
  intro f
  induction f with
  | zero =>
    intro l hl
    have : l = [] := List.eq_nil_of_length_eq_zero (Nat.le_zero.mp hl)
    subst this
    simp only [List.length_nil, v3TotalChunks_zero k hk]
    rfl
  | succ f ih =>
    intro l hl
    cases l with
    | nil =>
      simp only [List.length_nil, v3TotalChunks_zero k hk]
      rfl
    | cons x xs =>
      show ((x :: xs).take k :: splitBatchesFuel f ((x :: xs).drop k) k).length = _
      rw [List.length_cons, ih ((x :: xs).drop k) (by simp only [List.length_drop, List.length_cons] at hl ⊢; omega),
        v3TotalChunks_succ (x :: xs).length k hk (by simp), List.length_drop]

theorem splitBatchesFuel_sizes {α : Type} (k : Nat) (hk : 0 < k) :
    ∀ (f : Nat) (l : List α), l.length ≤ f →
      ∀ b ∈ splitBatchesFuel f l k, b.length ≤ k ∧ b ≠ [] := by
  intro f
  induction f with
  | zero =>
    intro l hl b hb
    have : l = [] := List.eq_nil_of_length_eq_zero (Nat.le_zero.mp hl)
    subst this
    cases hb
  | succ f ih =>
    intro l hl b hb
    cases l with
    | nil => cases hb
    | cons x xs =>
      rcases List.mem_cons.mp hb with hb | hb
      · subst hb
        constructor
        · rw [List.length_take]
          omega
        · have hk1 : (x :: xs).take k = x :: xs.take (k - 1) := by
            have : k = (k - 1) + 1 := by omega
            rw [this, List.take_succ_cons, Nat.succ_sub_one]
          rw [hk1]
          simp
      · exact ih ((x :: xs).drop k) (by simp only [List.length_drop, List.length_cons] at hl ⊢; omega) b hb

theorem splitBatchesFuel_dropLast {α : Type} (k : Nat) (hk : 0 < k) :
    ∀ (f : Nat) (l : List α), l.length ≤ f →
      ∀ b ∈ (splitBatchesFuel f l k).dropLast, b.length = k := by
  intro f
  induction f with
  | zero =>
    intro l hl b hb
    have : l = [] := List.eq_nil_of_length_eq_zero (Nat.le_zero.mp hl)
    subst this
    cases hb
  | succ f ih =>
    intro l hl b hb
    cases l with
    | nil => cases hb
    | cons x xs =>
      have hshow : splitBatchesFuel (f + 1) (x :: xs) k =
          (x :: xs).take k :: splitBatchesFuel f ((x :: xs).drop k) k := rfl
      rw [hshow] at hb
      cases hrest : splitBatchesFuel f ((x :: xs).drop k) k with
      | nil =>
        rw [hrest] at hb
        cases hb
      | cons b₀ bs =>
        rw [hrest, List.dropLast_cons₂] at hb
        rcases List.mem_cons.mp hb with hb | hb
        · subst hb
          have hne : (x :: xs).drop k ≠ [] := by
            intro hnil
            rw [hnil, splitBatchesFuel_nil] at hrest
            cases hrest
          have hlen : k < (x :: xs).length := by
            by_contra hcon
            apply hne
            rw [List.drop_eq_nil_iff]
            omega
          rw [List.length_take]
          omega
        · rw [← hrest] at hb
          exact ih ((x :: xs).drop k) (by simp only [List.length_drop, List.length_cons] at hl ⊢; omega) b hb

theorem sliceChunk_eq_take {α : Type} (es : List α) (c k : Nat) (hc : 1 ≤ c) :
    sliceChunk es c k = (es.drop ((c - 1) * k)).take k := by
  unfold sliceChunk
  obtain ⟨c', rfl⟩ : ∃ c', c = c' + 1 := ⟨c - 1, by omega⟩
  rcases le_or_lt ((c' + 1) * k) es.length with h | h
  · rw [min_eq_left h]
    have hck : (c' + 1) * k - (c' + 1 - 1) * k = k := by
      rw [Nat.succ_mul, Nat.succ_sub_one]
      omega
    rw [hck]
  · rw [min_eq_right (le_of_lt h)]
    have hck : (c' + 1) * k = (c' + 1 - 1) * k + k := by
      rw [Nat.succ_mul, Nat.succ_sub_one]
    have hlen : (es.drop ((c' + 1 - 1) * k)).length = es.length - (c' + 1 - 1) * k :=
      List.length_drop _ _
    rw [List.take_of_length_le (by rw [hlen]),
      List.take_of_length_le (by rw [hlen]; omega)]

theorem v3ChunkTake_eq_splitFuel {α : Type} (k : Nat) (hk : 0 < k) :
    ∀ (f : Nat) (es : List α), es.length ≤ f →
      (List.range' 1 (v3TotalChunks es.length k)).map
          (fun c => (es.drop ((c - 1) * k)).take k) =
        splitBatchesFuel f es k := by
  intro f
  induction f with
  | zero =>
    intro es hl
    have : es = [] := List.eq_nil_of_length_eq_zero (Nat.le_zero.mp hl)
    subst this
    simp only [List.length_nil, v3TotalChunks_zero k hk, List.range'_zero, List.map_nil]
    rfl
  | succ f ih =>
    intro es hl
    cases es with
    | nil =>
      simp only [List.length_nil, v3TotalChunks_zero k hk, List.range'_zero, List.map_nil]
      rfl
    | cons x xs =>
      rw [v3TotalChunks_succ (x :: xs).length k hk (by simp), List.range'_succ, List.map_cons]
      show _ :: _ = (x :: xs).take k :: splitBatchesFuel f ((x :: xs).drop k) k
      congr 1
      · simp
      · rw [← List.map_add_range' 1 1 (v3TotalChunks ((x :: xs).length - k) k) 1, List.map_map,
          ← ih ((x :: xs).drop k) (by simp only [List.length_drop, List.length_cons] at hl ⊢; omega),
          List.length_drop]
        apply List.map_congr_left
        intro c hc
        have hc1 : 1 ≤ c := (List.mem_range'_1.mp hc).1
        show ((x :: xs).drop ((1 + c - 1) * k)).take k =
          (((x :: xs).drop k).drop ((c - 1) * k)).take k
        rw [List.drop_drop]
        have harith : (1 + c - 1) * k = k + (c - 1) * k := by
          have h1 : 1 + c - 1 = c := by omega
          rw [h1]
          obtain ⟨c'', rfl⟩ : ∃ c'', c = c'' + 1 := ⟨c - 1, by omega⟩
          rw [Nat.succ_mul, Nat.succ_sub_one]
          omega
        rw [harith]

/-- The chunk sequence of the v2/v3 pass loops is exactly
`split_into_batches`. -/
theorem v3ChunkList_eq_split {α : Type} (k : Nat) (hk : 0 < k) (es : List α) :
    v3ChunkList es k = split_into_batches es k := by
  unfold v3ChunkList split_into_batches
  rw [← v3ChunkTake_eq_splitFuel k hk es.length es (Nat.le_refl _)]
  apply List.map_congr_left
  intro c hc
  exact sliceChunk_eq_take es c k (List.mem_range'_1.mp hc).1

/-- C7 (confirmed).  For every segment sequence and chunk size `K > 0`,
the Batch Scheduler's chunking (`split_into_batches`, and the identical
slicing loop of `process_entries`) partitions the sequence into exactly
`⌈N/K⌉` contiguous chunks in original order — their concatenation is the
original sequence, so their union is exactly positions `1..N` with no
position in two chunks — each chunk is non-empty of at most `K` segments,
and every chunk except possibly the last has exactly `K`. -/
theorem c7_chunk_coverage {α : Type} (l : List α) (k : Nat) (hk : 0 < k) :
    (split_into_batches l k).flatten = l ∧
    (split_into_batches l k).length = (l.length + k - 1) / k ∧
    (∀ b ∈ split_into_batches l k, b.length ≤ k ∧ b ≠ []) ∧
    (∀ b ∈ (split_into_batches l k).dropLast, b.length = k) ∧
    v3ChunkList l k = split_into_batches l k :=
  ⟨splitBatchesFuel_join k hk l.length l (Nat.le_refl _),
    splitBatchesFuel_length k hk l.length l (Nat.le_refl _),
    splitBatchesFuel_sizes k hk l.length l (Nat.le_refl _),
    splitBatchesFuel_dropLast k hk l.length l (Nat.le_refl _),
    v3ChunkList_eq_split k hk l⟩

/-- Witness for C7 on a concrete 3-segment sequence with chunk size 2. -/
theorem c7_witness :
    (split_into_batches [(1 : Nat), 2, 3] 2).flatten = [1, 2, 3] ∧
    (split_into_batches [(1 : Nat), 2, 3] 2).length = (3 + 2 - 1) / 2 ∧
    (∀ b ∈ split_into_batches [(1 : Nat), 2, 3] 2, b.length ≤ 2 ∧ b ≠ []) ∧
    (∀ b ∈ (split_into_batches [(1 : Nat), 2, 3] 2).dropLast, b.length = 2) ∧
    v3ChunkList [(1 : Nat), 2, 3] 2 = split_into_batches [(1 : Nat), 2, 3] 2 := by
  have h := c7_chunk_coverage [(1 : Nat), 2, 3] 2 (by decide)
  simpa using h

/-!  Oracle-failure handling in `process_entries` (claim C4). -/

theorem foldl_chunks_flatten (chunks : List (List Segment)) (acc : Dict) :
    chunks.foldl (fun a ch => ch.foldl (fun d e => dictInsert d e.index e.text) a) acc =
      chunks.flatten.foldl (fun d e => dictInsert d e.index e.text) acc := by
  induction chunks generalizing acc with
  | nil => rfl
  | cons ch chunks ih =>
    rw [List.foldl_cons, List.flatten_cons, List.foldl_append, ih]

theorem pass1Fold_all_none (es : List Segment)
    (oracle : Nat → Nat → List IEntry → Option (List Char)) (k : Nat) (hk : 0 < k)
    (hor : ∀ p c b, oracle p c b = none) :
    pass1Fold es oracle k =
      es.foldl (fun d e => dictInsert d e.index e.text) [] := by
  unfold pass1Fold
  have h1 : ∀ (cl : List Nat) (acc : Dict),
      cl.foldl (fun acc c =>
        pass1ChunkMerge acc (sliceChunk es c k)
          (oracle 1 c ((sliceChunk es c k).map toIEntry))) acc =
      cl.foldl (fun acc c =>
        (sliceChunk es c k).foldl (fun d e => dictInsert d e.index e.text) acc) acc := by
    intro cl
    induction cl with
    | nil => intro acc; rfl
    | cons c cl ih =>
      intro acc
      rw [List.foldl_cons, List.foldl_cons, hor 1 c _]
      exact ih _
  rw [h1]
  have h2 : (List.range' 1 (v3TotalChunks es.length k)).foldl
      (fun acc c =>
        (sliceChunk es c k).foldl (fun d e => dictInsert d e.index e.text) acc) [] =
      (v3ChunkList es k).foldl
        (fun a ch => ch.foldl (fun d e => dictInsert d e.index e.text) a) [] := by
    rw [v3ChunkList, List.foldl_map]
  rw [h2, foldl_chunks_flatten, v3ChunkList_eq_split k hk,
    show (split_into_batches es k).flatten = es from
      splitBatchesFuel_join k hk es.length es (Nat.le_refl _)]

theorem pass2Fold_all_none (p1 : List IEntry)
    (oracle : Nat → Nat → List IEntry → Option (List Char)) (k tc : Nat) (start : Dict)
    (hor : ∀ p c b, oracle p c b = none) :
    pass2Fold p1 oracle k tc start = start := by
  unfold pass2Fold
  induction (List.range' 1 tc) generalizing start with
  | nil => rfl
  | cons c cl ih =>
    rw [List.foldl_cons, hor 2 c _]
    exact ih _

/-- C4, amended.  (i) When the oracle fails on a chunk, the pass-1 merge
for that chunk binds every segment of the chunk to its pre-chunk text.
(ii) When every oracle call fails, the run still completes and the final
correction map binds every segment index to the deterministic
rule-substitution image of its original text — the identity mapping
exactly when the shipped `simple_patterns` table is empty, but not in
general, because the dictionary post-pass is applied unconditionally. -/
theorem c4_oracle_failure_fallback :
    (∀ (acc : Dict) (chunk : List Segment),
      List.Pairwise (fun a b => a.index ≠ b.index) chunk →
      ∀ e ∈ chunk, dictGet? (pass1ChunkMerge acc chunk none) e.index = some e.text) ∧
    (∀ (es : List Segment) (oracle : Nat → Nat → List IEntry → Option (List Char))
        (pats : Patterns) (k : Nat), 0 < k → ∀ (twoPass : Bool),
      (∀ p c b, oracle p c b = none) →
      process_entries es oracle pats k twoPass =
        dictMapValues (fun t => apply_simple_replacements t pats)
          (es.foldl (fun d e => dictInsert d e.index e.text) [])) := by
  constructor
  · intro acc chunk hnd e he
    exact insertFold_get_self Segment.index Segment.text chunk acc hnd e he
  · intro es oracle pats k hk twoPass hor
    unfold process_entries
    rw [pass1Fold_all_none es oracle k hk hor]
    cases twoPass with
    | false => rfl
    | true =>
      simp only [if_true]
      rw [pass2Fold_all_none _ oracle k _ _ hor]

/-- Concrete data for claims C4 and C6. -/
def segA : Segment :=
  ⟨1, "00:00:01.000".toList, "00:00:02.000".toList, "a".toList⟩

/-- A pattern store whose `simple_patterns` rewrites `a` to `b`. -/
def patsAB : Patterns := ⟨[("a".toList, "b".toList)], [], []⟩

/-- An oracle adapter that fails on every call. -/
def oracleNone : Nat → Nat → List IEntry → Option (List Char) := fun _ _ _ => none

/-- Witness for C4: the chunk merge on failure restores original texts,
and the worst-case run produces the rule-substituted originals. -/
theorem c4_witness :
    dictGet? (pass1ChunkMerge [] [segA] none) 1 = some ("a".toList) ∧
    process_entries [segA] oracleNone patsAB 100 true =
      dictMapValues (fun t => apply_simple_replacements t patsAB)
        ([segA].foldl (fun d e => dictInsert d e.index e.text) []) :=
  ⟨c4_oracle_failure_fallback.1 [] [segA] (by decide) segA (by decide),
    c4_oracle_failure_fallback.2 [segA] oracleNone patsAB 100 (by decide) true
      (fun _ _ _ => rfl)⟩

/-- Counterexample to C4 as stated: with the pattern store rewriting `a`
to `b` and every oracle call failing, the final correction map sends index
1 to `b`, not to the original text `a` — the final map is not the identity
mapping on the original texts. -/
theorem c4_counterexample :
    dictGet? (process_entries [segA] oracleNone patsAB 100 true) 1 = some ("b".toList) ∧
      some ("b".toList) ≠ some ("a".toList) := by
  constructor
  · decide
  · decide

/-!  The two-pass scheduler (claim C6). -/

/-- An oracle whose pass-1 answer is `[1] A` and whose pass-2 answer is
`[1] B`. -/
def oracleAB : Nat → Nat → List IEntry → Option (List Char) :=
  fun p _ _ => if p == 1 then some ("[1] A".toList) else some ("[1] B".toList)

/-- An oracle whose pass-1 answer is `[1] A` and whose pass-2 answer
echoes the text of the first entry of the batch it was given, with `!`
appended — it reveals which text pass 2 received. -/
def oracleEcho : Nat → Nat → List IEntry → Option (List Char) :=
  fun p _ b =>
    if p == 1 then some ("[1] A".toList)
    else some (("[1] ".toList) ++ ((b.head?.map IEntry.text).getD []) ++ ("!".toList))

/-- C6 (confirmed), in the v3 configuration (`chunk_size = 100`,
`enable_two_pass = true`), for a segment with arbitrary original text and
timestamps.  (i) The spec's scenario: pass-1 output `A` for index 1 and
pass-2 response `[1] B` give final value `B` — pass 2 supersedes pass 1.
(ii) With an oracle that echoes its pass-2 input, the final value is
`A!`: pass 2 received the pass-1 corrected text `A`, not the original
text.  (iii) With every oracle call failing, the final value is still the
rule-based substitution image of the original text: the deterministic
post-pass runs regardless of how many oracle passes succeeded. -/
theorem c6_two_pass_supersede (txt st en : List Char) :
    dictGet? (process_entries [⟨1, st, en, txt⟩] oracleAB emptyPatterns 100 true) 1 =
      some ("B".toList) ∧
    dictGet? (process_entries [⟨1, st, en, txt⟩] oracleEcho emptyPatterns 100 true) 1 =
      some ("A!".toList) ∧
    dictGet? (process_entries [⟨1, st, en, txt⟩] oracleNone patsAB 100 true) 1 =
      some (apply_simple_replacements txt patsAB) := by
  have htc : v3TotalChunks [(⟨1, st, en, txt⟩ : Segment)].length 100 = 1 := by
    show v3TotalChunks 1 100 = 1
    rfl
  have hrange : List.range' 1 1 = [1] := rfl
  have hp1AB : pass1Fold [(⟨1, st, en, txt⟩ : Segment)] oracleAB 100 = [(1, "A".toList)] := by
    unfold pass1Fold
    rw [htc, hrange, List.foldl_cons, List.foldl_nil]
    rfl
  have hp1E : pass1Fold [(⟨1, st, en, txt⟩ : Segment)] oracleEcho 100 = [(1, "A".toList)] := by
    unfold pass1Fold
    rw [htc, hrange, List.foldl_cons, List.foldl_nil]
    rfl
  have hp1N : pass1Fold [(⟨1, st, en, txt⟩ : Segment)] oracleNone 100 = [(1, txt)] := by
    unfold pass1Fold
    rw [htc, hrange, List.foldl_cons, List.foldl_nil]
    rfl
  refine ⟨?_, ?_, ?_⟩
  · unfold process_entries
    rw [hp1AB, htc]
    rfl
  · unfold process_entries
    rw [hp1E, htc]
    rfl
  · unfold process_entries
    rw [hp1N, htc]
    show dictGet? (dictMapValues (fun t => apply_simple_replacements t patsAB)
      (pass2Fold [⟨1, txt⟩] oracleNone 100 1 [(1, txt)])) 1 = _
    rw [pass2Fold_all_none [⟨1, txt⟩] oracleNone 100 1 [(1, txt)] (fun _ _ _ => rfl)]
    rfl

/-!  Speaker-name removal (claim C8). -/

theorem speakerLoopFuel_suffix (t : List Char) :
    ∀ (f : Nat) (s : List Char), s <:+ t → speakerLoopFuel t f s <:+ t := by
  intro f
  induction f with
  | zero => intro s _; exact List.suffix_refl t
  | succ f ih =>
    intro s hs
    cases s with
    | nil => exact List.suffix_refl t
    | cons c r =>
      show (if c == ':' then r.dropWhile isPySpace
        else
          if (c :: r).takeWhile isPySpace = [] then t
          else
            let s2 := (c :: r).dropWhile isPySpace
            let run := s2.takeWhile isNameChar
            if run = [] then t
            else speakerLoopFuel t f (s2.drop run.length)) <:+ t
      by_cases hc : (c == ':') = true
      · rw [if_pos hc]
        exact ((List.dropWhile_suffix isPySpace).trans (List.suffix_cons c r)).trans hs
      · rw [if_neg hc]
        by_cases hws : (c :: r).takeWhile isPySpace = []
        · rw [if_pos hws]
        · rw [if_neg hws]
          by_cases hrun : ((c :: r).dropWhile isPySpace).takeWhile isNameChar = []
          · simp only [hrun, if_pos]
            exact List.suffix_refl t
          · simp only [if_neg hrun]
            apply ih
            exact ((List.drop_suffix _ _).trans
              (List.dropWhile_suffix isPySpace)).trans hs

/-- C8, amended.  The speaker-removal mode is a single boolean: when
enabled the emitter applies `remove_speaker_name` once to each record's
whole text, and when disabled texts are written unchanged.
`remove_speaker_name` removes at most one leading token at the start of
the whole text — the result is always a suffix of the input — so a
speaker token at the start of a later line of a multi-line text is *not*
removed (the source regex is anchored without `re.MULTILINE`; see the
counterexample). -/
theorem c8_speaker_name_removal :
    (∀ (es : List Segment) (m : Dict),
      (write_srt_file es m true).map SrtRecord.text =
        es.map (fun e => remove_speaker_name ((dictGet? m e.index).getD e.text))) ∧
    (∀ (es : List Segment) (m : Dict),
      (write_srt_file es m false).map SrtRecord.text =
        es.map (fun e => (dictGet? m e.index).getD e.text)) ∧
    (∀ t : List Char, remove_speaker_name t <:+ t) := by
  refine ⟨?_, ?_, ?_⟩
  · intro es m
    unfold write_srt_file
    rw [List.map_map]
    rfl
  · intro es m
    unfold write_srt_file
    rw [List.map_map]
    rfl
  · intro t
    unfold remove_speaker_name
    by_cases h : t.takeWhile isNameChar = []
    · rw [if_pos h]
    · rw [if_neg h]
      exact speakerLoopFuel_suffix t (t.length + 1) _ (List.drop_suffix _ t)

/-- Counterexample to C8 as stated: for the two-line record text
`A: x / B: y` the emitter removes only the leading token of the whole
text; the second line still begins with the speaker token `B: ` (the
heuristic itself would strip it, as the third conjunct shows), so the
token is *not* stripped from each line. -/
theorem c8_counterexample :
    (write_srt_file
        [⟨1, "00:00:01.000".toList, "00:00:02.000".toList, "A: x\nB: y".toList⟩]
        [] true).map SrtRecord.text = ["x\nB: y".toList] ∧
    splitOnNL ("x\nB: y".toList) = ["x".toList, "B: y".toList] ∧
    remove_speaker_name ("B: y".toList) ≠ "B: y".toList := by
  refine ⟨by decide, by decide, by decide⟩

/-!  Segment immutability (claim C9). -/

/-- C9, amended.  No step of the pipeline ever alters a parsed segment's
`index`, `start` or `end`: the correction step of `process_vtt_ai.py`
preserves them even as it overwrites `text` in place, and the emitter
writes each segment's parser timestamps with only the period-to-comma
reformatting.  (That the `text` field of a parsed segment is never
mutated is false for `process_vtt_ai.py`: see the counterexample.) -/
theorem c9_segment_immutability :
    (∀ (es : List Segment) (corrected : List IEntry),
      (ai_apply_corrections es corrected).map (fun e => (e.index, e.start, e.stop)) =
        es.map (fun e => (e.index, e.start, e.stop))) ∧
    (∀ (es : List Segment) (m : Dict) (b : Bool),
      (write_srt_file es m b).map (fun r => (r.num, r.start, r.stop)) =
        es.map (fun e => (e.index, vtt_time_to_srt_time e.start,
          vtt_time_to_srt_time e.stop))) := by
  constructor
  · intro es corrected
    unfold ai_apply_corrections
    rw [List.map_map]
    apply List.map_congr_left
    intro e _
    simp only [Function.comp_apply]
    cases dictGet? (List.foldl (fun d e => dictInsert d e.index e.text) [] corrected)
      e.index <;> rfl
  · intro es m b
    unfold write_srt_file
    rw [List.map_map]
    rfl

/-- Counterexample to C9 as stated: the correction step of
`process_vtt_ai.py` (`entry['text'] = corrected_dict[entry['index']]`)
overwrites the `text` field of the parsed segment, so the segment record
used downstream is no longer the segment the parser produced. -/
theorem c9_counterexample :
    ai_apply_corrections
        [⟨1, "00:00:01.000".toList, "00:00:02.000".toList, "x".toList⟩]
        [⟨1, "y".toList⟩] =
      [⟨1, "00:00:01.000".toList, "00:00:02.000".toList, "y".toList⟩] ∧
    (⟨1, "00:00:01.000".toList, "00:00:02.000".toList, "y".toList⟩ : Segment) ≠
      ⟨1, "00:00:01.000".toList, "00:00:02.000".toList, "x".toList⟩ := by
  refine ⟨by decide, by decide⟩
